import Mathlib

/-!
Verification of the framing/decoding core of the instruments repository:
the relay frame codec (src/proxr.py), the SCPI block-transfer decoder,
the waveform sample transform and the discrete-value quantizer
(src/instruments.py).

Shallow-embedding conventions: Python byte strings and byte lists are
modelled as `List Nat` (each element one byte value), Python ints as
`Nat`, or `Int` where a subtraction can go negative, and the float
arithmetic of the quantizer and waveform transform as exact rationals
`ℚ` (all operations involved are affine/absolute-value computations).
Fallible decoding returns `Option`; an index error on an empty buffer is
outside the embedding, so theorems about the decoder carry a
non-emptiness hypothesis.
-/

set_option maxRecDepth 100000

namespace Instruments

/-- Embeds the frame-building prefix of ProXRRelayModule.send_command
(src/proxr.py lines 19-22): the command list supplied by the caller is mutated by
command.insert(0, len(command)); command.insert(0, 170);
command.append(sum(command) & 255).  We model the post-call value of the
mutated list as a function of its pre-call value. -/
def relayEncode (payload : List Nat) : List Nat :=
  let withLen : List Nat := payload.length :: payload
  let withPreamble : List Nat := 170 :: withLen
  withPreamble ++ [withPreamble.sum % 256]

/-- Embeds the response-validation half of the socket flavor of
ProXRRelayModule.send_command (src/proxr.py lines 30-42): handshake
(data[0] == 170), declared length (len(data) <= 1 or data[1] ==
len(data) - 3, an int comparison that can see a negative right side),
checksum (sum of data[0..len-2] masked with 255 equals data[-1]); on
success the payload is data[2..len-2], otherwise None. -/
def relayDecode (data : List Nat) : Option (List Nat) :=
  if data.getD 0 0 = 170
      ∧ (data.length ≤ 1 ∨ ((data.getD 1 0 : Int) = (data.length : Int) - 3))
      ∧ (data.take (data.length - 1)).sum % 256 = data.getD (data.length - 1) 0
  then some ((data.drop 2).take (data.length - 3))
  else none

/-- Embeds the socket flavor of send_command (src/proxr.py lines 26-44).
The inbound byte stream is a parameter; recv(bytes_back + 3) is modelled
as taking at most that many bytes from it.  Returns the transmitted
frame together with the decoded response. -/
def sendCommandSocket (command : List Nat) (bytes_back : Nat) (inbound : List Nat) :
    List Nat × Option (List Nat) :=
  let frame := relayEncode command
  (frame, if 0 < bytes_back then relayDecode (inbound.take (bytes_back + 3)) else some [])

/-- Embeds the serial flavor of send_command (src/proxr.py lines 23-25):
the frame is written and read(bytes_back) is returned directly, with no
validation of any kind. -/
def sendCommandSerial (command : List Nat) (bytes_back : Nat) (inbound : List Nat) :
    List Nat × Option (List Nat) :=
  let frame := relayEncode command
  (frame, some (inbound.take bytes_back))

/-- Claim C2: the frame-building prefix of send_command produces exactly
[0xAA, len(payload)] ++ payload ++ [(0xAA + len(payload) + sum(payload))
mod 256]; in particular encoding [254, 140, 85, 1] yields
[0xAA, 4, 254, 140, 85, 1, (0xAA+4+254+140+85+1) mod 256]. -/
theorem relayEncode_eq (payload : List Nat) :
    relayEncode payload
      = 170 :: payload.length :: payload
          ++ [(170 + payload.length + payload.sum) % 256]
    ∧ relayEncode [254, 140, 85, 1]
      = [170, 4, 254, 140, 85, 1, (170 + 4 + 254 + 140 + 85 + 1) % 256] := by
  constructor
  · simp [relayEncode]
    omega
  · decide

/-- Claim C10: send_command mutates the caller-supplied command list in
place into the full encoded frame (modelled as the post-call value
relayEncode payload), which differs from the original payload; hence a
second call on the same list frames the already-framed buffer. -/
theorem relayEncode_mutates (payload : List Nat) :
    relayEncode payload
      = 170 :: payload.length :: payload
          ++ [(170 + payload.length + payload.sum) % 256]
    ∧ relayEncode payload ≠ payload
    ∧ relayEncode (relayEncode payload)
      = 170 :: (payload.length + 3) :: relayEncode payload
          ++ [(170 + (payload.length + 3) + (relayEncode payload).sum) % 256] := by
  refine ⟨?_, ?_, ?_⟩
  · simp [relayEncode]
    omega
  · intro hcontra
    have hlen := congrArg List.length hcontra
    simp [relayEncode] at hlen
    omega
  · have h1 : (relayEncode payload).length = payload.length + 3 := by
      simp [relayEncode]
    calc relayEncode (relayEncode payload)
        = 170 :: (relayEncode payload).length :: relayEncode payload
            ++ [(170 + (relayEncode payload).length + (relayEncode payload).sum) % 256] := by
          simp [relayEncode]
          omega
      _ = 170 :: (payload.length + 3) :: relayEncode payload
            ++ [(170 + (payload.length + 3) + (relayEncode payload).sum) % 256] := by
          rw [h1]

/-- Claim C1: the socket-flavor decode returns the payload slice
data[2..len-2] iff the handshake, declared-length and checksum
validations all pass, otherwise None; the frame [0xAA, 1, 85, 0] (whose
checksum byte is (0xAA+1+85) mod 256 = 0) decodes to [85], and changing
any single byte of it to any other byte value makes decode fail. -/
theorem relayDecode_iff (data : List Nat) (h : data ≠ []) :
    (relayDecode data = some ((data.drop 2).take (data.length - 3))
      ↔ (data.getD 0 0 = 170
          ∧ (data.length ≤ 1 ∨ ((data.getD 1 0 : Int) = (data.length : Int) - 3))
          ∧ (data.take (data.length - 1)).sum % 256 = data.getD (data.length - 1) 0))
    ∧ (¬ (data.getD 0 0 = 170
          ∧ (data.length ≤ 1 ∨ ((data.getD 1 0 : Int) = (data.length : Int) - 3))
          ∧ (data.take (data.length - 1)).sum % 256 = data.getD (data.length - 1) 0)
        → relayDecode data = none)
    ∧ relayDecode [170, 1, 85, 0] = some [85]
    ∧ (∀ i : Fin 4, ∀ v : Fin 256,
        (v : Nat) ≠ ([170, 1, 85, 0] : List Nat).getD i 0 →
        relayDecode (([170, 1, 85, 0] : List Nat).set i v) = none) := by
  refine ⟨?_, ?_, ?_, ?_⟩
  · unfold relayDecode
    split
    next hc => exact iff_of_true rfl hc
    next hc => exact iff_of_false (by simp) hc
  · intro hv
    unfold relayDecode
    rw [if_neg hv]
  · decide
  · decide

/-- Witness for relayDecode_iff at the concrete frame [0xAA, 1, 85, 0]. -/
theorem relayDecode_iff_witness :
    (([170, 1, 85, 0] : List Nat) ≠ []) ∧ relayDecode [170, 1, 85, 0] = some [85] :=
  ⟨by decide, (relayDecode_iff [170, 1, 85, 0] (by decide)).2.2.1⟩

/-- Claim C8 counterexample: on inbound bytes [0, 0, 0, 0] the serial
flavor returns the raw bytes it read while the socket flavor rejects the
frame, so the two flavors do not make the identical accept/reject
decision. -/
theorem sendCommand_flavors_differ :
    (sendCommandSerial [254, 33] 1 [0, 0, 0, 0]).2 = some [0]
    ∧ (sendCommandSocket [254, 33] 1 [0, 0, 0, 0]).2 = none := by
  constructor
  · decide
  · decide

/-- Claim C8 amended: the two flavors transmit the identical encoded
frame (the framing lines are shared), but only the socket flavor
validates the response: the serial flavor returns the raw bytes read,
accepting every inbound byte sequence. -/
theorem sendCommand_flavors_share_framing
    (command : List Nat) (bytes_back : Nat) (inbound : List Nat) :
    (sendCommandSerial command bytes_back inbound).1
      = (sendCommandSocket command bytes_back inbound).1
    ∧ (sendCommandSerial command bytes_back inbound).1 = relayEncode command
    ∧ (sendCommandSerial command bytes_back inbound).2 = some (inbound.take bytes_back) :=
  ⟨rfl, rfl, rfl⟩

/-- Embeds Python min(candidates, key) as used by every quantized setter
(e.g. DS1000Z.set_probe_ratio, DS1000Z.set_averages in
src/instruments.py): the running best is replaced only when a strictly
smaller key is seen, so the first minimal-key element wins; min on an
empty sequence raises, modelled as none. -/
def pyMin (key : ℚ → ℚ) : List ℚ → Option ℚ
  | [] => none
  | x :: xs => some (xs.foldl (fun best c => if key c < key best then c else best) x)

/-- Embeds the quantizer pattern
min(candidates, key=lambda x: abs(x - requested)) of src/instruments.py
(set_probe_ratio line 392, set_averages line 122, and the other
quantized setters). -/
def quantize (requested : ℚ) (candidates : List ℚ) : Option ℚ :=
  pyMin (fun c => |c - requested|) candidates

lemma pyMin_foldl_spec (key : ℚ → ℚ) :
    ∀ (l : List ℚ) (a : ℚ),
      (l.foldl (fun best c => if key c < key best then c else best) a = a
        ∧ ∀ c ∈ l, key a ≤ key c)
      ∨ (∃ p r q, l = p ++ r :: q
          ∧ l.foldl (fun best c => if key c < key best then c else best) a = r
          ∧ key r < key a
          ∧ (∀ c ∈ p, key r < key c)
          ∧ (∀ c ∈ l, key r ≤ key c)) := by
  intro l
  induction l with
  | nil => intro a; exact Or.inl ⟨rfl, by simp⟩
  | cons c l ih =>
    intro a
    by_cases hc : key c < key a
    · have hstep : (c :: l).foldl (fun best x => if key x < key best then x else best) a
          = l.foldl (fun best x => if key x < key best then x else best) c := by
        simp [List.foldl_cons, if_pos hc]
      rcases ih c with ⟨hfold, hall⟩ | ⟨p, r, q, hl, hfold, hr, hp, hall⟩
      · refine Or.inr ⟨[], c, l, by simp, by rw [hstep, hfold], hc, by simp, ?_⟩
        intro x hx
        rcases List.mem_cons.mp hx with hx | hx
        · exact le_of_eq (by rw [hx])
        · exact hall x hx
      · refine Or.inr ⟨c :: p, r, q, by rw [hl, List.cons_append], by rw [hstep, hfold],
          lt_trans hr hc, ?_, ?_⟩
        · intro x hx
          rcases List.mem_cons.mp hx with hx | hx
          · rw [hx]; exact hr
          · exact hp x hx
        · intro x hx
          rcases List.mem_cons.mp hx with hx | hx
          · rw [hx]; exact le_of_lt hr
          · exact hall x (hl ▸ hx)
    · have hac : key a ≤ key c := le_of_not_lt hc
      have hstep : (c :: l).foldl (fun best x => if key x < key best then x else best) a
          = l.foldl (fun best x => if key x < key best then x else best) a := by
        simp [List.foldl_cons, if_neg hc]
      rcases ih a with ⟨hfold, hall⟩ | ⟨p, r, q, hl, hfold, hr, hp, hall⟩
      · refine Or.inl ⟨by rw [hstep, hfold], ?_⟩
        intro x hx
        rcases List.mem_cons.mp hx with hx | hx
        · rw [hx]; exact hac
        · exact hall x hx
      · refine Or.inr ⟨c :: p, r, q, by rw [hl, List.cons_append], by rw [hstep, hfold], hr, ?_,
          ?_⟩
        · intro x hx
          rcases List.mem_cons.mp hx with hx | hx
          · rw [hx]; exact lt_of_lt_of_le hr hac
          · exact hp x hx
        · intro x hx
          rcases List.mem_cons.mp hx with hx | hx
          · rw [hx]; exact le_of_lt (lt_of_lt_of_le hr hac)
          · exact hall x (hl ▸ hx)

lemma quantize_first_min (x : ℚ) (C : List ℚ) (h : C ≠ []) :
    ∃ p r q, C = p ++ r :: q
      ∧ quantize x C = some r
      ∧ (∀ c ∈ p, |r - x| < |c - x|)
      ∧ (∀ c ∈ C, |r - x| ≤ |c - x|) := by
  rcases C with _ | ⟨a, l⟩
  · exact absurd rfl h
  · rcases pyMin_foldl_spec (fun c => |c - x|) l a with ⟨hfold, hall⟩ |
      ⟨p, r, q, hl, hfold, hr, hp, hall⟩
    · refine ⟨[], a, l, by simp, ?_, by simp, ?_⟩
      · simp only [quantize, pyMin, hfold]
      · intro c hc
        rcases List.mem_cons.mp hc with hc | hc
        · rw [hc]
        · exact hall c hc
    · refine ⟨a :: p, r, q, by rw [hl]; rfl, ?_, ?_, ?_⟩
      · simp only [quantize, pyMin, hfold]
      · intro c hc
        rcases List.mem_cons.mp hc with hc | hc
        · rw [hc]; exact hr
        · exact hp c hc
      · intro c hc
        rcases List.mem_cons.mp hc with hc | hc
        · rw [hc]; exact le_of_lt hr
        · exact hall c (hl ▸ hc)

/-- Claim C3: for a non-empty candidate list the quantizer returns the
first element, in the iteration order of the list, that minimizes the
absolute distance to the requested value (every earlier element is
strictly farther, every element at least as far); consequently the
result is a member of the candidate list, and quantizing 2 over [1, 3]
gives 1. -/
theorem quantize_first_minimizer (x : ℚ) (C : List ℚ) (h : C ≠ []) :
    (∃ p r q, C = p ++ r :: q
      ∧ quantize x C = some r
      ∧ (∀ c ∈ p, |r - x| < |c - x|)
      ∧ (∀ c ∈ C, |r - x| ≤ |c - x|))
    ∧ (∀ r, quantize x C = some r → r ∈ C)
    ∧ quantize 2 [1, 3] = some 1 := by
  obtain ⟨p, r, q, hC, hq, hp, hall⟩ := quantize_first_min x C h
  refine ⟨⟨p, r, q, hC, hq, hp, hall⟩, ?_, by norm_num [quantize, pyMin]⟩
  intro r' hr'
  have : r' = r := by
    rw [hq] at hr'
    exact (Option.some_injective _ hr').symm
  rw [this, hC]
  simp

/-- Witness for quantize_first_minimizer at x = 2, C = [1, 3]. -/
theorem quantize_first_minimizer_witness :
    (([1, 3] : List ℚ) ≠ []) ∧ quantize 2 [1, 3] = some 1 :=
  ⟨by decide, (quantize_first_minimizer 2 [1, 3] (by decide)).2.2⟩

/-- Claim C9: the quantizer is idempotent: quantizing a quantized value
over the same non-empty candidate list returns that value again. -/
theorem quantize_idempotent (x : ℚ) (C : List ℚ) (h : C ≠ []) :
    ∃ r, quantize x C = some r ∧ quantize r C = some r := by
  obtain ⟨p, r, q, hC, hq, _, _⟩ := quantize_first_min x C h
  obtain ⟨p', r', q', hC', hq', _, hall'⟩ := quantize_first_min r C h
  have hrC : r ∈ C := by rw [hC]; simp
  have hle : |r' - r| ≤ |r - r| := hall' r hrC
  have hzero : |r' - r| = 0 := le_antisymm (by simpa using hle) (abs_nonneg _)
  have : r' = r := by
    have := abs_eq_zero.mp hzero
    linarith [this]
  exact ⟨r, hq, by rw [hq', this]⟩

/-- Witness for quantize_idempotent at x = 2, C = [1, 3]. -/
theorem quantize_idempotent_witness :
    (([1, 3] : List ℚ) ≠ [])
    ∧ ∃ r, quantize 2 [1, 3] = some r ∧ quantize r [1, 3] = some r :=
  ⟨by decide, quantize_idempotent 2 [1, 3] (by decide)⟩

/-- Whether a byte is an ASCII decimal digit (the characters int()
accepts in the headers decoded by take_screenshot and
get_waveform_samples). -/
def isAsciiDigit (b : Nat) : Bool := decide (48 ≤ b) && decide (b ≤ 57)

/-- Embeds Python int(s) on a string of ASCII digit bytes: fails (raises
ValueError, modelled as none) on an empty string or a non-digit
character, otherwise returns the decimal value. -/
def parseAsciiNat (ds : List Nat) : Option Nat :=
  if ds = [] then none
  else if ds.all isAsciiDigit then some (ds.foldl (fun a d => 10 * a + (d - 48)) 0)
  else none

/-- Embeds the SCPI definite-length block decode shared by
DS1000Z.take_screenshot (src/instruments.py lines 626-628) and
DS1000Z.get_waveform_samples (lines 2707-2709):
n_header_bytes = int(chr(buff[1])) + 2;
n_data_bytes = int(buff[2:n_header_bytes]);
payload = buff[n_header_bytes : n_header_bytes + n_data_bytes].
Index errors and int() parse errors are modelled as none.  Note the code
performs no truncation check: the final slice silently yields whatever
bytes are available. -/
def decodeBlock (buff : List Nat) : Option (List Nat × Nat) :=
  if buff.length < 2 then none
  else
    match parseAsciiNat [buff.getD 1 0] with
    | none => none
    | some L =>
      match parseAsciiNat ((buff.drop 2).take L) with
      | none => none
      | some n => some ((buff.drop (L + 2)).take n, n)

/-- The ASCII decimal representation of a natural number, most
significant digit first, matching Python str(n) for n >= 0. -/
def asciiDecimal (n : Nat) : List Nat :=
  if n = 0 then [48] else (Nat.digits 10 n).reverse.map (fun d => d + 48)

/-- The block buffer construction described by the round-trip claim:
the marker byte 35, one ASCII digit giving the digit count of the
payload length, the ASCII decimal digits of that length, then the
payload. -/
def encodeBlock (payload : List Nat) : List Nat :=
  let ds := asciiDecimal payload.length
  35 :: (48 + ds.length) :: (ds ++ payload)

lemma foldr_parse_eq_ofDigits (l : List Nat) :
    l.foldr (fun d a => 10 * a + d) 0 = Nat.ofDigits 10 l := by
  induction l with
  | nil => simp [Nat.ofDigits]
  | cons d l ih =>
    simp only [List.foldr_cons, Nat.ofDigits_cons, ih]
    omega

lemma parse_reverse_digits (n : Nat) :
    (Nat.digits 10 n).reverse.foldl (fun a d => 10 * a + d) 0 = n := by
  rw [List.foldl_reverse, foldr_parse_eq_ofDigits]
  exact_mod_cast Nat.ofDigits_digits 10 n

lemma asciiDecimal_ne_nil (n : Nat) : asciiDecimal n ≠ [] := by
  unfold asciiDecimal
  split
  · simp
  · simpa using Nat.digits_ne_nil_iff_ne_zero.mpr (by assumption)

lemma parseAsciiNat_single (L : Nat) (h9 : L ≤ 9) :
    parseAsciiNat [48 + L] = some L := by
  simp [parseAsciiNat, isAsciiDigit]
  omega

lemma parseAsciiNat_asciiDecimal (n : Nat) :
    parseAsciiNat (asciiDecimal n) = some n := by
  by_cases hn : n = 0
  · subst hn; decide
  · unfold parseAsciiNat
    rw [if_neg (asciiDecimal_ne_nil n)]
    have hall : (asciiDecimal n).all isAsciiDigit = true := by
      rw [List.all_eq_true]
      intro b hb
      unfold asciiDecimal at hb
      rw [if_neg hn] at hb
      simp only [List.mem_map, List.mem_reverse] at hb
      obtain ⟨d, hd, rfl⟩ := hb
      have hdlt : d < 10 := Nat.digits_lt_base (by norm_num) hd
      simp [isAsciiDigit]
      omega
    rw [if_pos hall]
    congr 1
    unfold asciiDecimal
    rw [if_neg hn, List.foldl_map]
    simp only [Nat.add_sub_cancel]
    exact parse_reverse_digits n

lemma asciiDecimal_len_le_nine (n : Nat) (h : n < 10 ^ 9) :
    (asciiDecimal n).length ≤ 9 := by
  unfold asciiDecimal
  split
  · simp
  · simp only [List.length_map, List.length_reverse]
    by_contra hlen
    push_neg at hlen
    have h1 : (10 : ℕ) ^ (Nat.digits 10 n).length ≤ 10 * n :=
      Nat.base_pow_length_digits_le 10 n (by norm_num) (by assumption)
    have h2 : (10 : ℕ) ^ 10 ≤ 10 ^ (Nat.digits 10 n).length :=
      Nat.pow_le_pow_right (by norm_num) hlen
    have h3 : (10 : ℕ) ^ 10 ≤ 10 * n := le_trans h2 h1
    norm_num at h3 h
    omega

lemma decodeBlock_eval (buff : List Nat) (L n : Nat)
    (hlen : ¬ buff.length < 2)
    (hL : parseAsciiNat [buff.getD 1 0] = some L)
    (hn : parseAsciiNat ((buff.drop 2).take L) = some n) :
    decodeBlock buff = some ((buff.drop (L + 2)).take n, n) := by
  unfold decodeBlock
  rw [if_neg hlen]
  simp only [hL, hn]

lemma decodeBlock_encodeBlock (payload : List Nat)
    (h9 : (asciiDecimal payload.length).length ≤ 9) :
    decodeBlock (encodeBlock payload) = some (payload, payload.length) := by
  have hds : encodeBlock payload
      = 35 :: (48 + (asciiDecimal payload.length).length)
          :: (asciiDecimal payload.length ++ payload) := rfl
  have heval := decodeBlock_eval (encodeBlock payload)
      (asciiDecimal payload.length).length payload.length
      (by rw [hds]; simp)
      (by rw [hds]; exact parseAsciiNat_single _ h9)
      (by rw [hds]
          have hdrop2 : (35 :: (48 + (asciiDecimal payload.length).length)
              :: (asciiDecimal payload.length ++ payload)).drop 2
              = asciiDecimal payload.length ++ payload := rfl
          rw [hdrop2, List.take_left, parseAsciiNat_asciiDecimal])
  rw [heval, hds]
  have hdrop : (35 :: (48 + (asciiDecimal payload.length).length)
      :: (asciiDecimal payload.length ++ payload)).drop
        ((asciiDecimal payload.length).length + 2) = payload := by
    rw [show (asciiDecimal payload.length).length + 2
        = ((asciiDecimal payload.length).length + 1) + 1 from rfl]
    rw [List.drop_succ_cons, List.drop_succ_cons, List.drop_left]
  rw [hdrop, List.take_length]

/-- Claim C4: block codec round-trip: for a payload whose length N lies
in the set of boundary values 0, 1, 9, 10, 1199, 1000000, building the
buffer marker-byte, digit-count byte, ASCII decimal digits of N, payload
and decoding it returns exactly the original payload and the declared
length N. -/
theorem block_roundtrip (payload : List Nat)
    (h : payload.length ∈ ([0, 1, 9, 10, 1199, 1000000] : List Nat)) :
    decodeBlock (encodeBlock payload) = some (payload, payload.length) := by
  apply decodeBlock_encodeBlock
  apply asciiDecimal_len_le_nine
  simp only [List.mem_cons, List.not_mem_nil, or_false] at h
  rcases h with h | h | h | h | h | h <;> rw [h] <;> norm_num

/-- Witness for block_roundtrip at the one-byte payload [65]. -/
theorem block_roundtrip_witness :
    (([65] : List Nat).length ∈ ([0, 1, 9, 10, 1199, 1000000] : List Nat))
    ∧ decodeBlock (encodeBlock [65]) = some ([65], ([65] : List Nat).length) :=
  ⟨by decide, block_roundtrip [65] (by decide)⟩

/-- Claim C5 counterexample: the buffer 35, 49, 50, 7 declares a
2-byte payload but carries only one byte; the decode slices silently and
returns the short payload [7] with declared length 2 instead of any
truncation error. -/
theorem block_truncation_counterexample :
    decodeBlock [35, 49, 50, 7] = some ([7], 2)
    ∧ ([7] : List Nat).length < 2 := by
  constructor
  · decide
  · decide

/-- Claim C5 amended: on a buffer whose header is well formed (one
digit-count byte 48 + L, L digits parsing to N) but whose total length
is below 2 + L + N, the decoder does not return a truncation error: it
returns the declared length N together with all bytes from position
2 + L on, a payload strictly shorter than N that is a suffix of the
buffer (so no bytes outside the buffer are fabricated). -/
theorem block_truncated_short_payload (buff : List Nat) (L N : Nat)
    (hL9 : L ≤ 9)
    (hbyte : buff.getD 1 0 = 48 + L)
    (hN : parseAsciiNat ((buff.drop 2).take L) = some N)
    (hlen : 2 + L ≤ buff.length)
    (htr : buff.length < 2 + L + N) :
    decodeBlock buff = some (buff.drop (L + 2), N)
    ∧ (buff.drop (L + 2)).length = buff.length - (L + 2)
    ∧ (buff.drop (L + 2)).length < N
    ∧ buff.drop (L + 2) <:+ buff := by
  have hshort : (buff.drop (L + 2)).length < N := by
    rw [List.length_drop]
    omega
  have heval := decodeBlock_eval buff L N
      (by omega)
      (by rw [hbyte]; exact parseAsciiNat_single _ hL9)
      hN
  refine ⟨?_, List.length_drop _ _, hshort, List.drop_suffix _ _⟩
  rw [heval, List.take_of_length_le (le_of_lt hshort)]

/-- Witness for block_truncated_short_payload at the buffer
35, 49, 50, 7. -/
theorem block_truncated_short_payload_witness :
    parseAsciiNat ((([35, 49, 50, 7] : List Nat).drop 2).take 1) = some 2
    ∧ decodeBlock [35, 49, 50, 7] = some (([35, 49, 50, 7] : List Nat).drop (1 + 2), 2) :=
  ⟨by decide,
    (block_truncated_short_payload [35, 49, 50, 7] 1 2 (by decide) (by decide)
      (by decide) (by decide) (by decide)).1⟩

/-- Embeds the per-sample value transform of DS1000Z.get_waveform_samples
(src/instruments.py lines 2712-2714): each raw sample s becomes
(s - y_origin - y_reference) * y_increment. -/
def toPhysical (y_origin y_reference y_increment : ℚ) (samples : List ℚ) : List ℚ :=
  samples.map (fun s => (s - y_origin - y_reference) * y_increment)

/-- Embeds Python range(a, b) over integers. -/
def pyRange (a b : Int) : List Int :=
  (List.range (b - a).toNat).map (fun (k : Nat) => a + (k : Int))

/-- Embeds the x-axis synthesis of DS1000Z.get_waveform_samples
(src/instruments.py lines 2717-2720):
i * timebase_scale / 10.0 + timebase_offset for i in
range(-n // 2, n // 2); Python floor division on ints is Int.fdiv. -/
def xAxis (n : Nat) (timebase_scale timebase_offset : ℚ) : List ℚ :=
  (pyRange ((-(n : Int)).fdiv 2) ((n : Int).fdiv 2)).map
    (fun (i : Int) => (i : ℚ) * timebase_scale / 10 + timebase_offset)

/-- Claim C6: the waveform value transform maps each raw sample s
element-wise to (s - y_origin - y_reference) * y_increment, preserving
order and length; with y_origin = 0, y_reference = 0,
y_increment = 4/100 the raw byte 128 maps to 5.12. -/
theorem waveform_transform (y_origin y_reference y_increment : ℚ) (samples : List ℚ) :
    (toPhysical y_origin y_reference y_increment samples).length = samples.length
    ∧ (∀ i : Nat, (toPhysical y_origin y_reference y_increment samples)[i]?
        = (samples[i]?).map (fun s => (s - y_origin - y_reference) * y_increment))
    ∧ toPhysical 0 0 (4 / 100) [128] = [5.12] := by
  refine ⟨by simp [toPhysical], fun i => ?_, ?_⟩
  · simp [toPhysical]
  · norm_num [toPhysical]

lemma pyRange_length (a b : Int) : (pyRange a b).length = (b - a).toNat := by
  simp [pyRange]

lemma pyRange_getElem? (a b : Int) (k : Nat) (hk : k < (b - a).toNat) :
    (pyRange a b)[k]? = some (a + (k : Int)) := by
  simp [pyRange, hk]

lemma xAxis_getD (n : Nat) (ts toff : ℚ) (k : Nat)
    (hk : k < ((n : Int).fdiv 2 - (-(n : Int)).fdiv 2).toNat) :
    (xAxis n ts toff).getD k 0
      = (((-(n : Int)).fdiv 2 + (k : Int) : Int) : ℚ) * ts / 10 + toff := by
  unfold xAxis
  rw [List.getD_eq_getElem?_getD, List.getElem?_map, pyRange_getElem? _ _ _ hk]
  simp

/-- Claim C7 counterexample: with timebase_scale = 10 and
timebase_offset = 0 the 1200-point x-axis is not symmetric about the
offset: the first point is -600 and the last is 599, so paired points do
not sum to twice the offset. -/
theorem xaxis_not_symmetric :
    ¬ (∀ i : Nat, i < 1200 →
        (xAxis 1200 10 0).getD i 0 + (xAxis 1200 10 0).getD (1199 - i) 0 = 2 * 0) := by
  intro hsym
  have h0 := hsym 0 (by norm_num)
  simp only [Nat.sub_zero] at h0
  rw [xAxis_getD 1200 10 0 0 (by decide), xAxis_getD 1200 10 0 1199 (by decide)] at h0
  have hfd : (-((1200 : Nat) : Int)).fdiv 2 = -600 := by decide
  rw [hfd] at h0
  norm_num at h0

/-- Claim C7 amended: for timebase_scale > 0 the 1200-sample x-axis has
exactly 1200 points and is strictly increasing, but it is symmetric
about timebase_offset - timebase_scale/20 rather than about
timebase_offset: paired points at indices i and 1199 - i sum to
2 * timebase_offset - timebase_scale / 10. -/
theorem xaxis_shape (ts toff : ℚ) (hts : 0 < ts) :
    (xAxis 1200 ts toff).length = 1200
    ∧ (xAxis 1200 ts toff).Sorted (· < ·)
    ∧ ∀ i : Nat, i < 1200 →
        (xAxis 1200 ts toff).getD i 0 + (xAxis 1200 ts toff).getD (1199 - i) 0
          = 2 * toff - ts / 10 := by
  have hfd : (-((1200 : Nat) : Int)).fdiv 2 = -600 := by decide
  refine ⟨?_, ?_, ?_⟩
  · unfold xAxis
    rw [List.length_map, pyRange_length]
    decide
  · unfold xAxis pyRange
    rw [show ((((1200 : Nat) : Int).fdiv 2 - (-((1200 : Nat) : Int)).fdiv 2).toNat)
        = 1200 from by decide]
    have hint : List.Pairwise (fun x y : Int => x < y)
        (List.map (fun (k : Nat) => (-((1200 : Nat) : Int)).fdiv 2 + (k : Int))
          (List.range 1200)) := by
      refine List.Pairwise.map _ ?_ (List.pairwise_lt_range 1200)
      intro a b hab
      omega
    refine List.Pairwise.map _ ?_ hint
    intro i j hij
    have hcast : (i : ℚ) < (j : ℚ) := by exact_mod_cast hij
    have h10 : (0 : ℚ) < ts / 10 := by positivity
    have hmul := mul_lt_mul_of_pos_right hcast h10
    calc (i : ℚ) * ts / 10 + toff = (i : ℚ) * (ts / 10) + toff := by ring
      _ < (j : ℚ) * (ts / 10) + toff := by linarith
      _ = (j : ℚ) * ts / 10 + toff := by ring
  · intro i hi
    have hk1 : i < (((1200 : Nat) : Int).fdiv 2
        - (-((1200 : Nat) : Int)).fdiv 2).toNat := by
      have : (((1200 : Nat) : Int).fdiv 2 - (-((1200 : Nat) : Int)).fdiv 2).toNat
          = 1200 := by decide
      omega
    have hk2 : 1199 - i < (((1200 : Nat) : Int).fdiv 2
        - (-((1200 : Nat) : Int)).fdiv 2).toNat := by
      have : (((1200 : Nat) : Int).fdiv 2 - (-((1200 : Nat) : Int)).fdiv 2).toNat
          = 1200 := by decide
      omega
    rw [xAxis_getD 1200 ts toff i hk1, xAxis_getD 1200 ts toff (1199 - i) hk2, hfd]
    have hcast : ((1199 - i : Nat) : Int) = 1199 - (i : Int) := by omega
    rw [hcast]
    push_cast
    ring

/-- Witness for xaxis_shape at timebase_scale = 10, timebase_offset = 0. -/
theorem xaxis_shape_witness :
    ((0 : ℚ) < 10) ∧ (xAxis 1200 10 0).length = 1200 :=
  ⟨by norm_num, (xaxis_shape 10 0 (by norm_num)).1⟩

end Instruments
